import Mathlib

/-!
Formal model of `venv-pack` (`venv_pack/core.py`, `venv_pack/formats.py`).

Byte strings are modelled as `List Nat` (one `Nat` per byte / code point;
all paths and patterns in play are ASCII).  Python functions from the
source are translated one-for-one into executable Lean definitions, and
the specification's claims are settled as theorems about them.
-/

/-- A byte string (Python `str` / `bytes`), one `Nat` per byte. -/
abbrev Bytes := List Nat

/-- Lean string literal to byte string, for readable concrete values. -/
def strBytes (s : String) : Bytes := s.toList.map Char.toNat

/-! ### Shell-glob matching (model of CPython `fnmatch.fnmatch` on POSIX)

`fnmatch.translate` compiles a pattern to a regular expression: `*`
becomes `.*`, `?` becomes `.`, `[...]` a character class (leading `!`
negates, a leading `]` is literal, `-` makes ranges, an unterminated `[`
is a literal `[`), and every other character is literal.  We mirror this
as a token compiler followed by a backtracking matcher. -/

/-- Scan a class body up to the closing `]`; `none` if unterminated. -/
def scanToClose : Bytes → Option (Bytes × Bytes)
  | [] => none
  | c :: rest =>
    if c = 0x5D then some ([], rest)
    else (scanToClose rest).map (fun ab => (c :: ab.1, ab.2))

theorem scanToClose_length : ∀ {p a b : Bytes},
    scanToClose p = some (a, b) → b.length < p.length := by
  intro p
  induction p with
  | nil => intro a b h; simp [scanToClose] at h
  | cons c rest ih =>
    intro a b h
    unfold scanToClose at h
    split at h
    · simp only [Option.some.injEq, Prod.mk.injEq] at h
      simp [← h.2]
    · cases hm : scanToClose rest with
      | none => rw [hm] at h; simp at h
      | some ab =>
        rw [hm] at h
        simp only [Option.map_some', Option.some.injEq, Prod.mk.injEq] at h
        have hb := ih (a := ab.1) (b := ab.2) (by rw [hm])
        rw [← h.2]
        simp only [List.length_cons]
        omega

/-- Parse the body of a `[...]` class after an optional leading `!`
(a leading `]` in the body is literal): returns
(class body, rest of pattern after the closing `]`). -/
def parseClassBody (q : Bytes) : Option (Bytes × Bytes) :=
  match q with
  | [] => none
  | c :: rest =>
    if c = 0x5D then (scanToClose rest).map (fun ab => (0x5D :: ab.1, ab.2))
    else scanToClose (c :: rest)

theorem parseClassBody_length : ∀ {q a b : Bytes},
    parseClassBody q = some (a, b) → b.length < q.length := by
  intro q a b h
  cases q with
  | nil => simp [parseClassBody] at h
  | cons c rest =>
    simp only [parseClassBody] at h
    split at h
    · cases hm : scanToClose rest with
      | none => rw [hm] at h; simp at h
      | some ab =>
        rw [hm] at h
        simp only [Option.map_some', Option.some.injEq, Prod.mk.injEq] at h
        have hb := scanToClose_length (p := rest) (a := ab.1) (b := ab.2) (by rw [hm])
        rw [← h.2]
        simp only [List.length_cons]
        omega
    · exact scanToClose_length h

/-- Parse everything after a `[`: optional negating `!`, then the class
body; returns (negated?, body, rest). `none` when the class is
unterminated (the `[` is then a literal). -/
def parseClass (p : Bytes) : Option (Bool × Bytes × Bytes) :=
  match p with
  | [] => none
  | c :: q =>
    if c = 0x21 then (parseClassBody q).map (fun ab => (true, ab.1, ab.2))
    else (parseClassBody (c :: q)).map (fun ab => (false, ab.1, ab.2))

theorem parseClass_length : ∀ {p : Bytes} {n : Bool} {a b : Bytes},
    parseClass p = some (n, a, b) → b.length < p.length := by
  intro p n a b h
  cases p with
  | nil => simp [parseClass] at h
  | cons c q =>
    simp only [parseClass] at h
    split at h
    · cases hm : parseClassBody q with
      | none => rw [hm] at h; simp at h
      | some ab =>
        rw [hm] at h
        simp only [Option.map_some', Option.some.injEq, Prod.mk.injEq] at h
        have hb := parseClassBody_length (q := q) (a := ab.1) (b := ab.2) (by rw [hm])
        rw [← h.2.2]
        simp only [List.length_cons]
        omega
    · cases hm : parseClassBody (c :: q) with
      | none => rw [hm] at h; simp at h
      | some ab =>
        rw [hm] at h
        simp only [Option.map_some', Option.some.injEq, Prod.mk.injEq] at h
        have hb := parseClassBody_length (q := c :: q) (a := ab.1) (b := ab.2) (by rw [hm])
        rw [← h.2.2]
        exact hb

/-- One compiled pattern token. -/
inductive GlobTok where
  | star : GlobTok
  | any : GlobTok
  | lit : Nat → GlobTok
  | cls : Bool → Bytes → GlobTok
deriving DecidableEq, Repr

/-- Compile a glob pattern to tokens (model of `fnmatch.translate`). -/
def compileGlob (p : Bytes) : List GlobTok :=
  match p with
  | [] => []
  | c :: q =>
    if c = 0x2A then .star :: compileGlob q
    else if c = 0x3F then .any :: compileGlob q
    else if c = 0x5B then
      match h : parseClass q with
      | some (neg, body, rest) => .cls neg body :: compileGlob rest
      | none => .lit 0x5B :: compileGlob q
    else .lit c :: compileGlob q
termination_by p.length
decreasing_by
  all_goals simp only [List.length_cons]
  all_goals try omega
  have := parseClass_length h
  omega

/-- Does byte `c` match a character-class body (with `-` ranges)? -/
def classMatch (c : Nat) : Bytes → Bool
  | a :: 0x2D :: b :: rest => (decide (a ≤ c) && decide (c ≤ b)) || classMatch c rest
  | a :: rest => (c == a) || classMatch c rest
  | [] => false

/-- Backtracking matcher over compiled tokens. -/
def toksMatch : List GlobTok → Bytes → Bool
  | [], [] => true
  | [], _ :: _ => false
  | .star :: p, [] => toksMatch p []
  | .star :: p, c :: s => toksMatch p (c :: s) || toksMatch (.star :: p) s
  | .any :: _, [] => false
  | .any :: p, _ :: s => toksMatch p s
  | .lit _ :: _, [] => false
  | .lit a :: p, c :: s => (c == a) && toksMatch p s
  | .cls _ _ :: _, [] => false
  | .cls neg body :: p, c :: s => (classMatch c body != neg) && toksMatch p s
termination_by p s => (p.length, s.length)

/-- Model of `fnmatch.fnmatch(name, pattern)` (POSIX: `normcase` is the
identity, matching is case-sensitive). -/
def fnmatch (name pattern : Bytes) : Bool := toksMatch (compileGlob pattern) name

/-! ### Data model: `File`, context, `Env` (from `venv_pack/core.py`) -/

/-- Environment kind, resolved by discovery. -/
inductive Kind where
  | venv : Kind
  | virtualenv : Kind
deriving DecidableEq, Repr

/-- The discovery context (`AttrDict` built by `check_venv` /
`check_virtualenv`): environment root, kind, original interpreter
root, and the layout-dependent library / include dirs. -/
structure Context where
  kind : Kind
  pfx : Bytes
  origPfx : Bytes
  pyLib : Bytes
  pyInclude : Bytes
deriving DecidableEq, Repr

/-- A single archive record (`File` namedtuple): absolute `source` path
and archive-relative `target` path. -/
structure File where
  source : Bytes
  target : Bytes
deriving DecidableEq, Repr

/-- A virtual environment for packaging (`Env`): the discovery context,
the active file list `files`, and `_excluded_files`. -/
structure Env where
  ctx : Context
  files : List File
  excluded : List File
deriving DecidableEq, Repr

/-- `Env.exclude(pattern)`: one pass over `self.files`; matching entries
are appended to a copy of `_excluded_files`, the rest are kept, and a
new `Env` is returned (`_copy_with_files`). -/
def Env.exclude (env : Env) (pattern : Bytes) : Env :=
  let acc := env.files.foldl
    (fun (acc : List File × List File) f =>
      if fnmatch f.target pattern then (acc.1, acc.2 ++ [f])
      else (acc.1 ++ [f], acc.2))
    ([], env.excluded)
  { env with files := acc.1, excluded := acc.2 }

/-- `Env.include(pattern)`: one pass over `_excluded_files`; matching
entries are appended to a copy of `self.files`, the rest stay excluded,
and a new `Env` is returned (`_copy_with_files`). -/
def Env.include (env : Env) (pattern : Bytes) : Env :=
  let acc := env.excluded.foldl
    (fun (acc : List File × List File) f =>
      if fnmatch f.target pattern then (acc.1 ++ [f], acc.2)
      else (acc.1, acc.2 ++ [f]))
    (env.files, [])
  { env with files := acc.1, excluded := acc.2 }

/-! ### Errors (`VenvPackException` and leaked low-level exceptions) -/

/-- The distinct `VenvPackException` messages raised by `core.py`. -/
inductive VErr where
  | notCurrentEnv : VErr
  | pathMissing : Bytes → VErr
  | invalidEnv : Bytes → VErr
  | multiplePythons : Bytes → VErr
  | noPythons : Bytes → VErr
  | editablePackages : List Bytes → VErr
  | unknownExtension : Bytes → VErr
  | unknownFormat : Bytes → VErr
  | alreadyExists : Bytes → VErr
  | unknownFilter : Bytes → VErr
  | largeZip : VErr
  | pyPfxNotAbsolute : VErr
deriving DecidableEq, Repr

/-- An exception escaping a `venv_pack` entry point: either the domain
error `VenvPackException`, or a leaked low-level exception. -/
inductive PyErr where
  | venvPack : VErr → PyErr
  | valueError : PyErr
  | largeZipFile : PyErr
deriving DecidableEq, Repr

/-! ### Output name and format resolution (`Env._output_and_format`) -/

/-- Python `str.endswith`. -/
def endsWith (s suf : Bytes) : Bool := decide (suf <:+ s)

/-- The set literal `{'zip', 'tar.gz', 'tgz', 'tar.bz2', 'tbz2', 'tar'}`. -/
def knownFormats : List Bytes :=
  [strBytes "zip", strBytes "tar.gz", strBytes "tgz",
   strBytes "tar.bz2", strBytes "tbz2", strBytes "tar"]

/-- `Env._output_and_format(output, format)`; `name` is `self.name`,
the basename of the environment root.  On POSIX `os.extsep` is `.`. -/
def outputAndFormat (name : Bytes) (output : Option Bytes) (format : Bytes) :
    Except VErr (Bytes × Bytes) := do
  let fmt ←
    if output = none ∧ format = strBytes "infer" then pure (strBytes "tar.gz")
    else if format = strBytes "infer" then
      let o := output.getD []
      if endsWith o (strBytes ".zip") then pure (strBytes "zip")
      else if endsWith o (strBytes ".tar.gz") || endsWith o (strBytes ".tgz") then
        pure (strBytes "tar.gz")
      else if endsWith o (strBytes ".tar.bz2") || endsWith o (strBytes ".tbz2") then
        pure (strBytes "tar.bz2")
      else if endsWith o (strBytes ".tar") then pure (strBytes "tar")
      else throw (VErr.unknownExtension o)
    else if format ∉ knownFormats then throw (VErr.unknownFormat format)
    else pure format
  let out := match output with
    | none => name ++ 0x2E :: fmt
    | some o => o
  pure (out, fmt)

/-! ### Concrete sample values used by counterexamples and witnesses -/

/-- A sample discovery context for an environment rooted at `/env`. -/
def ctx0 : Context :=
  ⟨Kind.venv, strBytes "/env", strBytes "/usr",
   strBytes "lib/python3.7", strBytes "include/python3.7"⟩

def fileA : File := ⟨strBytes "/env/a", strBytes "a"⟩

def fileB : File := ⟨strBytes "/env/b", strBytes "b"⟩

/-- A freshly loaded `Env` (empty `_excluded_files`). -/
def env0 : Env := ⟨ctx0, [fileA, fileB], []⟩

/-- `env0.exclude("a")`: an `Env` whose excluded list already holds a
file matching the pattern `a`. -/
def env1 : Env := env0.exclude (strBytes "a")

/-- Equality of active file lists *as sets*. -/
def sameSetFiles (l1 l2 : List File) : Prop := ∀ f, f ∈ l1 ↔ f ∈ l2

/-! ### Shebang rewriting -/

def startsWith (s pre : Bytes) : Bool := decide (pre <+: s)

def countOcc (s pat : Bytes) : Nat :=
  match s with
  | [] => 0
  | c :: rest =>
    if pat ≠ [] ∧ pat <+: (c :: rest) then
      1 + countOcc (rest.drop (pat.length - 1)) pat
    else countOcc rest pat
termination_by s.length
decreasing_by
  · simp only [List.length_cons]
    have := List.length_drop (pat.length - 1) rest
    omega
  · simp only [List.length_cons]; omega

def replaceAll (s pat new : Bytes) : Bytes :=
  match s with
  | [] => []
  | c :: rest =>
    if pat ≠ [] ∧ pat <+: (c :: rest) then
      new ++ replaceAll (rest.drop (pat.length - 1)) pat new
    else c :: replaceAll rest pat new
termination_by s.length
decreasing_by
  · simp only [List.length_cons]
    have := List.length_drop (pat.length - 1) rest
    omega
  · simp only [List.length_cons]; omega

def execChars (s : Bytes) : Bytes :=
  match s with
  | [] => []
  | c :: rest =>
    if c = 0x5C ∧ rest.head? = some 0x20 then
      0x5C :: 0x20 :: execChars rest.tail
    else if c = 0x20 ∨ c = 0x0A ∨ c = 0x0D ∨ c = 0x09 then []
    else c :: execChars rest
termination_by s.length
decreasing_by
  · simp only [List.length_cons]
    have := List.length_tail rest
    omega
  · simp only [List.length_cons]; omega

def parseShebang (data : Bytes) : Option (Bytes × Bytes × Bytes) :=
  match data with
  | 0x23 :: 0x21 :: rest =>
    let spaces := rest.takeWhile (fun c => c == 0x20)
    let rest1 := rest.dropWhile (fun c => c == 0x20)
    match rest1 with
    | 0x2F :: rest2 =>
      let exe := 0x2F :: execChars rest2
      let opts := (rest1.drop exe.length).takeWhile (fun c => c != 0x0A)
      some (0x23 :: 0x21 :: (spaces ++ exe ++ opts), exe, opts)
    | _ => none
  | _ => none

def splitByte (sep : Nat) : Bytes → List Bytes
  | [] => [[]]
  | c :: rest =>
    match splitByte sep rest with
    | [] => [[]]
    | g :: gs => if c = sep then [] :: g :: gs else (c :: g) :: gs

def lastComp (s : Bytes) : Bytes := (splitByte 0x2F s).getLastD []

def rewrite_shebang (data target pfx : Bytes) : Bytes × Bool :=
  match parseShebang data with
  | some (shebang, exe, opts) =>
    if 1 < countOcc data pfx then (data, false)
    else if startsWith exe pfx then
      let newShebang := strBytes "#!/usr/bin/env " ++ lastComp exe ++ opts
      (replaceAll data shebang newShebang, true)
    else (data, true)
  | none => (data, false)


/-! C1 support lemmas -/

/-- `pat` occurs somewhere inside `s`. -/
def OccursIn (s pat : Bytes) : Prop := ∃ a b, s = a ++ pat ++ b

inductive SrcKind where
  | file : SrcKind
  | dir : SrcKind
  | link : Bytes → SrcKind
deriving DecidableEq, Repr

structure SrcInfo where
  kind : SrcKind
  content : Bytes
deriving DecidableEq, Repr

def SrcInfo.islink (s : SrcInfo) : Bool :=
  match s.kind with
  | SrcKind.link _ => true
  | _ => false

def SrcInfo.isdir (s : SrcInfo) : Bool :=
  match s.kind with
  | SrcKind.dir => true
  | _ => false

inductive ArcOp where
  | add : Bytes → Bytes → ArcOp
  | addBytes : Bytes → Bytes → Bytes → ArcOp
  | addLink : Bytes → Bytes → Bytes → ArcOp
deriving DecidableEq, Repr

def BIN_DIR : Bytes := strBytes "bin"

def Packer.add (rewrites : List (Bytes × Bytes)) (pfx : Bytes)
    (src : SrcInfo) (f : File) : ArcOp :=
  if rewrites ≠ [] ∧ src.islink then
    match src.kind with
    | SrcKind.link lt =>
      match rewrites.find? (fun rw => startsWith lt rw.1) with
      | some rw => ArcOp.addLink f.source (replaceAll lt rw.1 rw.2) f.target
      | none => ArcOp.add f.source f.target
    | _ => ArcOp.add f.source f.target
  else if startsWith f.target BIN_DIR ∧ ¬(src.isdir ∨ src.islink) then
    ArcOp.addBytes f.source (rewrite_shebang src.content f.target pfx).1 f.target
  else
    ArcOp.add f.source f.target

def src0 : SrcInfo := ⟨SrcKind.file, strBytes "#!/env/bin/python3.7 -O\nrest"⟩

def f0 : File := ⟨strBytes "/env/bin/pip", strBytes "bin/pip"⟩

/-! ### C5: editable-package check -/

deriving instance DecidableEq for Except

def rstrip (s : Bytes) : Bytes :=
  (s.reverse.dropWhile (fun c =>
    c == 0x20 || c == 0x09 || c == 0x0A || c == 0x0D || c == 0x0B || c == 0x0C)).reverse

def osJoin (a b : Bytes) : Bytes :=
  if startsWith b (strBytes "/") then b
  else if a = [] ∨ a.getLast? = some 0x2F then a ++ b
  else a ++ 0x2F :: b

def normComps (initialSlashes : Nat) (comps : List Bytes) : List Bytes :=
  comps.foldl (fun acc comp =>
    if comp = [] ∨ comp = strBytes "." then acc
    else if comp ≠ strBytes ".."
        ∨ (initialSlashes = 0 ∧ acc = [])
        ∨ (acc ≠ [] ∧ acc.getLast? = some (strBytes "..")) then acc ++ [comp]
    else if acc ≠ [] then acc.dropLast
    else acc) []

def normpath (path : Bytes) : Bytes :=
  if path = [] then strBytes "."
  else
    let initialSlashes :=
      if startsWith path (strBytes "//") ∧ ¬ startsWith path (strBytes "///") then 2
      else if startsWith path (strBytes "/") then 1
      else 0
    let joined := List.replicate initialSlashes 0x2F
      ++ List.intercalate [0x2F] (normComps initialSlashes (splitByte 0x2F path))
    if joined = [] then strBytes "." else joined

def bytesLe (a b : Bytes) : Bool := decide (a ≤ b)

def insertSorted (x : Bytes) : List Bytes → List Bytes
  | [] => [x]
  | y :: ys => if bytesLe x y then x :: y :: ys else y :: insertSorted x ys

def sortBytes : List Bytes → List Bytes
  | [] => []
  | x :: xs => insertSorted x (sortBytes xs)

def pthDirname (ctx : Context) : Bytes :=
  osJoin (osJoin ctx.pfx ctx.pyLib) (strBytes "site-packages")

def pthLineEditable (pfx dirname line : Bytes) : Option Bytes :=
  if startsWith line (strBytes "#") then none
  else
    let l := rstrip line
    if l = [] then none
    else if startsWith (normpath (osJoin dirname l)) pfx then none
    else some l

def check_no_editable_packages (ctx : Context) (pths : List (List Bytes)) :
    Except VErr Unit :=
  let editable :=
    (pths.flatMap (fun lines =>
      lines.filterMap (pthLineEditable ctx.pfx (pthDirname ctx)))).dedup
  if editable ≠ [] then Except.error (VErr.editablePackages (sortBytes editable))
  else Except.ok ()

def pathUnder (loc pfx : Bytes) : Prop := loc = pfx ∨ (pfx ++ [0x2F]) <+: loc

def lineOutsideRoot (pfx dirname line : Bytes) : Prop :=
  ¬ (strBytes "#" <+: line) ∧ rstrip line ≠ []
    ∧ ¬ pathUnder (normpath (osJoin dirname (rstrip line))) pfx

def ctx5 : Context :=
  ⟨Kind.virtualenv, strBytes "/env", strBytes "/usr",
   strBytes "lib/python3.7", strBytes "include/python3.7"⟩

/-! ### C4: discovery (`check_prefix`, `check_venv`, `check_virtualenv`) -/

structure DiscoveryFs where
  pathExists : Bool
  pyvenvCfg : Option (List Bytes)
  pythons : List Bytes
  origPrefixTxt : Option Bytes
deriving DecidableEq, Repr

def strip (s : Bytes) : Bytes :=
  rstrip (s.dropWhile (fun c =>
    c == 0x20 || c == 0x09 || c == 0x0A || c == 0x0D || c == 0x0B || c == 0x0C))

def lowerByte (c : Nat) : Nat := if 0x41 ≤ c ∧ c ≤ 0x5A then c + 0x20 else c

def lowerBytes (s : Bytes) : Bytes := s.map lowerByte

def osDirname (p : Bytes) : Bytes :=
  let head := (p.reverse.dropWhile (fun c => c != 0x2F)).reverse
  if head = [] then []
  else if head.all (fun c => c == 0x2F) then head
  else (head.reverse.dropWhile (fun c => c == 0x2F)).reverse

def find_python_lib_include (fs : DiscoveryFs) (pfx : Bytes) :
    Except PyErr (Bytes × Bytes) :=
  if 1 < fs.pythons.length then Except.error (PyErr.venvPack (VErr.multiplePythons pfx))
  else
    match fs.pythons with
    | [] => Except.error (PyErr.venvPack (VErr.noPythons pfx))
    | ver :: _ => Except.ok (osJoin (strBytes "lib") ver, osJoin (strBytes "include") ver)

def parseHome (pfx : Bytes) : List Bytes → Except PyErr Bytes
  | [] => Except.error (PyErr.venvPack (VErr.invalidEnv pfx))
  | line :: rest =>
    match splitByte 0x3D line with
    | [key, val] =>
      if lowerBytes (strip key) = strBytes "home" then Except.ok (osDirname (strip val))
      else parseHome pfx rest
    | _ => Except.error PyErr.valueError

def check_venv (fs : DiscoveryFs) (pfx : Bytes) : Except PyErr Context :=
  match fs.pyvenvCfg with
  | none => Except.error (PyErr.venvPack (VErr.invalidEnv pfx))
  | some lines =>
    match parseHome pfx lines with
    | Except.error e => Except.error e
    | Except.ok origPfx =>
      match find_python_lib_include fs pfx with
      | Except.error e => Except.error e
      | Except.ok li => Except.ok ⟨Kind.venv, pfx, origPfx, li.1, li.2⟩

def check_virtualenv (fs : DiscoveryFs) (pfx : Bytes) : Except PyErr Context :=
  match find_python_lib_include fs pfx with
  | Except.error e => Except.error e
  | Except.ok li =>
    match fs.origPrefixTxt with
    | none => Except.error (PyErr.venvPack (VErr.invalidEnv pfx))
    | some txt => Except.ok ⟨Kind.virtualenv, pfx, strip txt, li.1, li.2⟩

def PyErr.isVenvPack : PyErr → Bool
  | PyErr.venvPack _ => true
  | _ => false

def check_prefix (envVar arg : Option Bytes) (fs : DiscoveryFs) : Except PyErr Context :=
  match (match arg with | some p => some p | none => envVar) with
  | none => Except.error (PyErr.venvPack VErr.notCurrentEnv)
  | some pfx =>
    if ¬ fs.pathExists then Except.error (PyErr.venvPack (VErr.pathMissing pfx))
    else
      match check_venv fs pfx with
      | Except.ok ctx => Except.ok ctx
      | Except.error e =>
        if e.isVenvPack then
          match check_virtualenv fs pfx with
          | Except.ok ctx => Except.ok ctx
          | Except.error e2 =>
            if e2.isVenvPack then Except.error (PyErr.venvPack (VErr.invalidEnv pfx))
            else Except.error e2
        else Except.error e

def fs4 : DiscoveryFs :=
  ⟨true, some [strBytes "bogus\n"], [strBytes "python3.7"], some (strBytes "/usr\n")⟩

def fsVenv : DiscoveryFs :=
  ⟨true, some [strBytes "home = /usr/bin\n"], [strBytes "python3.7"], none⟩

/-! ### C3 / C7: file-manifest enumeration (`load_environment`, `Packer.finish`) -/

inductive FsNode where
  | file : FsNode
  | linkFile : FsNode
  | linkDir : FsNode
  | dir : List (Bytes × FsNode) → FsNode

def isDirLike : FsNode → Bool
  | FsNode.dir _ => true
  | FsNode.linkDir => true
  | _ => false

def nodeIsLink : FsNode → Bool
  | FsNode.linkFile => true
  | FsNode.linkDir => true
  | _ => false

mutual

def walkDir (root2 : Bytes) (children : List (Bytes × FsNode)) : List Bytes :=
  (if (children.filter (fun c => isDirLike c.2)).isEmpty
      && (children.filter (fun c => !(isDirLike c.2))).isEmpty then [root2]
   else
     (children.filter (fun c => !(isDirLike c.2))).map (fun c => osJoin root2 c.1)
     ++ ((children.filter (fun c => isDirLike c.2)).filter
          (fun c => nodeIsLink c.2)).map (fun c => osJoin root2 c.1))
  ++ walkSub root2 children
termination_by (sizeOf children, 1)

def walkSub (root2 : Bytes) (l : List (Bytes × FsNode)) : List Bytes :=
  match l with
  | [] => []
  | (name, FsNode.dir ch) :: rest => walkDir (osJoin root2 name) ch ++ walkSub root2 rest
  | _ :: rest => walkSub root2 rest
termination_by (sizeOf l, 0)

end

def load_environment_res (top : List (Bytes × FsNode)) : List Bytes :=
  top.flatMap (fun c =>
    match c.2 with
    | FsNode.dir ch => walkDir c.1 ch
    | _ => [c.1])

def load_environment_targets (ctx : Context) (top : List (Bytes × FsNode)) : List Bytes :=
  let remove :=
    [osJoin BIN_DIR (strBytes "activate"),
     osJoin BIN_DIR (strBytes "activate.csh"),
     osJoin BIN_DIR (strBytes "activate.fish")]
    ++ (if ctx.kind = Kind.virtualenv then
          [osJoin (osJoin ctx.pfx ctx.pyLib) (strBytes "orig-prefix.txt")]
        else
          [osJoin ctx.pfx (strBytes "pyvenv.cfg")])
  (load_environment_res top).filter
    (fun p => !(remove.contains p || endsWith p (strBytes "~")
                || endsWith p (strBytes ".DS_STORE")))

def load_environment_files (ctx : Context) (top : List (Bytes × FsNode)) : List File :=
  (load_environment_targets ctx top).map (fun p => ⟨osJoin ctx.pfx p, p⟩)

def pathComps (p : Bytes) : List Bytes := (splitByte 0x2F p).filter (fun x => x ≠ [])

def commonLen : List Bytes → List Bytes → Nat
  | a :: as, b :: bs => if a = b then 1 + commonLen as bs else 0
  | _, _ => 0

def relpath (path start : Bytes) : Bytes :=
  let pl := pathComps path
  let sl := pathComps start
  let i := commonLen sl pl
  let rel := List.replicate (sl.length - i) (strBytes "..") ++ pl.drop i
  if rel = [] then strBytes "."
  else List.intercalate [0x2F] rel

def Packer.finishTargets (ctx : Context) (scriptNames : List Bytes) : List Bytes :=
  scriptNames.map (fun f => osJoin BIN_DIR f)
  ++ (if ctx.kind = Kind.venv then [strBytes "pyvenv.cfg"]
      else [relpath (osJoin (osJoin ctx.pfx ctx.pyLib) (strBytes "orig-prefix.txt"))
              ctx.pfx])

def wfName (n : Bytes) : Prop :=
  n ≠ [] ∧ 0x2F ∉ n ∧ n ≠ strBytes "." ∧ n ≠ strBytes ".."

def wfNode : FsNode → Prop
  | FsNode.dir ch => ∀ c ∈ ch, wfName c.1 ∧ wfNode c.2
  | _ => True
termination_by n => sizeOf n
decreasing_by
  rename_i hc
  have h1 := List.sizeOf_lt_of_mem hc
  have h2 : sizeOf c.2 < sizeOf c := by
    rcases c with ⟨name, node⟩
    simp
  have h3 : sizeOf (FsNode.dir ch) = 1 + sizeOf ch := by simp
  omega

def WfChildren (children : List (Bytes × FsNode)) : Prop :=
  ∀ c ∈ children, wfName c.1 ∧ wfNode c.2

def targetSafe (t : Bytes) : Prop :=
  t.head? ≠ some 0x2F ∧ t ≠ strBytes ".." ∧ ¬ (strBytes "../" <+: t)

def top3 : List (Bytes × FsNode) :=
  [(strBytes "pyvenv.cfg", FsNode.file),
   (strBytes "bin", FsNode.dir
     [(strBytes "activate", FsNode.file),
      (strBytes "pip", FsNode.file),
      (strBytes "junk~", FsNode.file)])]

def scripts0 : List Bytes := [strBytes "activate"]

/-! ### C6: `Env.pack` staging, cleanup and ZIP64 translation -/

/-- What ends up at the requested output path. -/
inductive OutFile where
  | preexisting : OutFile
  | packed : OutFile
deriving DecidableEq, Repr

/-- Result of one `Env.pack` call: the returned path or the escaping
exception, whether the `mkstemp` temporary file is left behind, and
what the output path holds afterwards. -/
structure PackResult where
  result : Except PyErr Bytes
  tempLeft : Bool
  output : Option OutFile
deriving DecidableEq, Repr

/-- `ZIP_FILECOUNT_LIMIT` of CPython's `zipfile`. -/
def ZIP_FILECOUNT_LIMIT : Nat := 65535

/-- The archive-writing loop (`packer.add` per file plus
`packer.finish`), modelled from CPython `zipfile` semantics: with ZIP64
disabled, `ZipFile._writecheck` raises `zipfile.LargeZipFile` on the
write that would exceed `ZIP_FILECOUNT_LIMIT` entries.  Tar formats
never raise it.  `nEntries` counts every entry handed to the archive. -/
def archiveWrite (format : Bytes) (zip64 : Bool) (nEntries : Nat) :
    Except PyErr Unit :=
  if format = strBytes "zip" then
    if ¬ zip64 ∧ ZIP_FILECOUNT_LIMIT < nEntries then Except.error PyErr.largeZipFile
    else Except.ok ()
  else Except.ok ()

/-- `Env.pack`: resolve output and format, refuse to clobber without
`force`, write into a `mkstemp` temporary inside
`try/except zipfile.LargeZipFile` (translated to `VenvPackException`);
on any exception the temporary is removed and the exception propagates,
on success the temporary is moved onto the output path. -/
def packRun (name : Bytes) (output : Option Bytes) (format : Bytes)
    (outPre force : Bool) (writeOutcome : Except PyErr Unit) : PackResult :=
  match outputAndFormat name output format with
  | Except.error e =>
    ⟨Except.error (PyErr.venvPack e), false,
     if outPre then some OutFile.preexisting else none⟩
  | Except.ok (out, _) =>
    if outPre ∧ ¬ force then
      ⟨Except.error (PyErr.venvPack (VErr.alreadyExists out)), false,
       if outPre then some OutFile.preexisting else none⟩
    else
      match writeOutcome with
      | Except.ok () => ⟨Except.ok out, false, some OutFile.packed⟩
      | Except.error PyErr.largeZipFile =>
        ⟨Except.error (PyErr.venvPack VErr.largeZip), false,
         if outPre then some OutFile.preexisting else none⟩
      | Except.error e =>
        ⟨Except.error e, false,
         if outPre then some OutFile.preexisting else none⟩

/-! ## Theorems -/

/-! ### Filter pipeline characterizations -/

/-- Characterization of the `exclude` fold. -/
theorem exclude_foldl (l : List File) (pattern : Bytes) (fs ex : List File) :
    l.foldl
      (fun (acc : List File × List File) f =>
        if fnmatch f.target pattern then (acc.1, acc.2 ++ [f])
        else (acc.1 ++ [f], acc.2)) (fs, ex)
    = (fs ++ l.filter (fun f => !(fnmatch f.target pattern)),
       ex ++ l.filter (fun f => fnmatch f.target pattern)) := by
  induction l generalizing fs ex with
  | nil => simp
  | cons f l ih =>
    by_cases h : fnmatch f.target pattern
    · simp [h, ih, List.filter_cons]
    · simp [h, ih, List.filter_cons]

/-- Characterization of the `include` fold. -/
theorem include_foldl (l : List File) (pattern : Bytes) (fs ex : List File) :
    l.foldl
      (fun (acc : List File × List File) f =>
        if fnmatch f.target pattern then (acc.1 ++ [f], acc.2)
        else (acc.1, acc.2 ++ [f])) (fs, ex)
    = (fs ++ l.filter (fun f => fnmatch f.target pattern),
       ex ++ l.filter (fun f => !(fnmatch f.target pattern))) := by
  induction l generalizing fs ex with
  | nil => simp
  | cons f l ih =>
    by_cases h : fnmatch f.target pattern
    · simp [h, ih, List.filter_cons]
    · simp [h, ih, List.filter_cons]

theorem exclude_files (env : Env) (pattern : Bytes) :
    (env.exclude pattern).files
      = env.files.filter (fun f => !(fnmatch f.target pattern)) := by
  simp [Env.exclude, exclude_foldl]

theorem exclude_excluded (env : Env) (pattern : Bytes) :
    (env.exclude pattern).excluded
      = env.excluded ++ env.files.filter (fun f => fnmatch f.target pattern) := by
  simp [Env.exclude, exclude_foldl]

theorem include_files (env : Env) (pattern : Bytes) :
    (env.include pattern).files
      = env.files ++ env.excluded.filter (fun f => fnmatch f.target pattern) := by
  simp [Env.include, include_foldl]

theorem include_excluded (env : Env) (pattern : Bytes) :
    (env.include pattern).excluded
      = env.excluded.filter (fun f => !(fnmatch f.target pattern)) := by
  simp [Env.include, include_foldl]

/-- C10: `exclude` keeps the surviving active entries in order (a filter
of the active list) and appends the newly excluded entries after the
previously excluded ones; `include` keeps the already-active entries in
order and appends the re-admitted entries after all of them, in excluded
-list order. -/
theorem C10_exclude_include_order (env : Env) (pattern : Bytes) :
    (env.exclude pattern).files
        = env.files.filter (fun f => !(fnmatch f.target pattern))
  ∧ (env.exclude pattern).excluded
        = env.excluded ++ env.files.filter (fun f => fnmatch f.target pattern)
  ∧ (env.include pattern).files
        = env.files ++ env.excluded.filter (fun f => fnmatch f.target pattern)
  ∧ (env.include pattern).excluded
        = env.excluded.filter (fun f => !(fnmatch f.target pattern)) :=
  ⟨exclude_files env pattern, exclude_excluded env pattern,
   include_files env pattern, include_excluded env pattern⟩

/-- C9: active plus excluded lists of the `Env` returned by `exclude` or
`include` are a permutation of the receiver's active plus excluded lists
(no entry lost or duplicated); the receiver itself is a value and is
never mutated. -/
theorem C9_partition_preserved (env : Env) (pattern : Bytes) :
    ((env.exclude pattern).files ++ (env.exclude pattern).excluded).Perm
      (env.files ++ env.excluded)
  ∧ ((env.include pattern).files ++ (env.include pattern).excluded).Perm
      (env.files ++ env.excluded) := by
  constructor
  · rw [exclude_files, exclude_excluded]
    have h1 := List.Perm.append_left
      (env.files.filter (fun f => !(fnmatch f.target pattern)))
      (@List.perm_append_comm File env.excluded
        (env.files.filter (fun f => fnmatch f.target pattern)))
    refine h1.trans ?_
    rw [← List.append_assoc]
    refine List.Perm.append_right _ ?_
    exact List.perm_append_comm.trans (List.filter_append_perm _ _)
  · rw [include_files, include_excluded]
    rw [List.append_assoc]
    exact List.Perm.append_left _ (List.filter_append_perm _ _)

theorem fnmatch_aa : fnmatch (strBytes "a") (strBytes "a") = true := by
  simp [fnmatch, strBytes, compileGlob, toksMatch]

theorem fnmatch_ba : fnmatch (strBytes "b") (strBytes "a") = false := by
  simp [fnmatch, strBytes, compileGlob, toksMatch]

theorem env1_files : env1.files = [fileB] := by
  rw [env1, exclude_files]
  simp [env0, List.filter_cons, fileA, fileB, fnmatch_aa, fnmatch_ba]

theorem env1_excluded : env1.excluded = [fileA] := by
  rw [env1, exclude_excluded]
  simp [env0, List.filter_cons, fileA, fileB, fnmatch_aa, fnmatch_ba]

/-- C2 fails as stated: for `env1` (an `Env` whose excluded list already
holds a file matching pattern `a`), `env1.exclude("a").include("a")`
re-admits that previously excluded file, so its active set strictly
exceeds `env1`'s active set. -/
theorem C2_counterexample :
    ¬ sameSetFiles ((env1.exclude (strBytes "a")).include (strBytes "a")).files
        env1.files := by
  intro h
  have hres : ((env1.exclude (strBytes "a")).include (strBytes "a")).files
      = [fileB, fileA] := by
    rw [include_files, exclude_files, exclude_excluded, env1_files, env1_excluded]
    simp [List.filter_cons, fileA, fileB, fnmatch_aa, fnmatch_ba]
  have hA : fileA ∈ ((env1.exclude (strBytes "a")).include (strBytes "a")).files := by
    rw [hres]; simp
  have := (h fileA).mp hA
  rw [env1_files] at this
  simp [fileA, fileB, File.mk.injEq, strBytes] at this

/-- C2 (amended): for every `Env` none of whose *excluded* entries
matches `P` — in particular any freshly discovered `Env`, whose excluded
list is empty — `env.exclude(P).include(P)` has an active file set equal,
as a set, to `env`'s active file set. -/
theorem C2_exclude_include_roundtrip (env : Env) (pattern : Bytes)
    (h : ∀ f ∈ env.excluded, fnmatch f.target pattern = false) :
    sameSetFiles ((env.exclude pattern).include pattern).files env.files := by
  intro f
  rw [include_files, exclude_files, exclude_excluded]
  simp only [List.mem_append, List.mem_filter, Bool.not_eq_true']
  constructor
  · rintro (⟨hf, _⟩ | ⟨hf | ⟨hf, _⟩, hm⟩)
    · exact hf
    · exact absurd (h f hf) (by simp [hm])
    · exact hf
  · intro hf
    by_cases hm : fnmatch f.target pattern
    · exact Or.inr ⟨Or.inr ⟨hf, hm⟩, hm⟩
    · exact Or.inl ⟨hf, by simp [hm]⟩

theorem C2_witness :
    sameSetFiles ((env0.exclude (strBytes "a")).include (strBytes "a")).files
      env0.files :=
  C2_exclude_include_roundtrip env0 (strBytes "a") (by simp [env0])

theorem endsWith_getLast {s suf : Bytes} {c : Nat} (h : endsWith s suf = true)
    (hc : suf.getLast? = some c) : s.getLast? = some c := by
  obtain ⟨t, ht⟩ := of_decide_eq_true h
  rw [← ht, List.getLast?_append_of_ne_nil]
  · exact hc
  · intro hnil; rw [hnil] at hc; simp at hc

theorem endsWith_false_of_getLast {s suf : Bytes} {c d : Nat}
    (hs : s.getLast? = some c) (hsuf : suf.getLast? = some d) (hne : c ≠ d) :
    endsWith s suf = false := by
  cases he : endsWith s suf
  · rfl
  · have := endsWith_getLast he hsuf
    rw [hs] at this
    exact absurd (Option.some.inj this) hne

/-- C8: with neither output nor format given, the format is tar.gz and
the output is the environment name plus ".tar.gz"; with format "infer"
and an output name, the format follows the extension (.zip, .tar.gz/.tgz,
.tar.bz2/.tbz2, .tar) and an unrecognized extension is a
`VenvPackException`; an explicit format outside the known set is a
`VenvPackException`. -/
theorem C8_output_format_resolution (name o format : Bytes) :
    (outputAndFormat name none (strBytes "infer")
        = .ok (name ++ strBytes ".tar.gz", strBytes "tar.gz"))
  ∧ (endsWith o (strBytes ".zip") = true →
        outputAndFormat name (some o) (strBytes "infer") = .ok (o, strBytes "zip"))
  ∧ (endsWith o (strBytes ".tar.gz") = true ∨ endsWith o (strBytes ".tgz") = true →
        outputAndFormat name (some o) (strBytes "infer") = .ok (o, strBytes "tar.gz"))
  ∧ (endsWith o (strBytes ".tar.bz2") = true ∨ endsWith o (strBytes ".tbz2") = true →
        outputAndFormat name (some o) (strBytes "infer") = .ok (o, strBytes "tar.bz2"))
  ∧ (endsWith o (strBytes ".tar") = true ∧ endsWith o (strBytes ".tar.gz") = false
        ∧ endsWith o (strBytes ".tar.bz2") = false →
        outputAndFormat name (some o) (strBytes "infer") = .ok (o, strBytes "tar"))
  ∧ (endsWith o (strBytes ".zip") = false → endsWith o (strBytes ".tar.gz") = false →
      endsWith o (strBytes ".tgz") = false → endsWith o (strBytes ".tar.bz2") = false →
      endsWith o (strBytes ".tbz2") = false → endsWith o (strBytes ".tar") = false →
        outputAndFormat name (some o) (strBytes "infer")
          = .error (VErr.unknownExtension o))
  ∧ (format ≠ strBytes "infer" → format ∉ knownFormats →
        outputAndFormat name (some o) format = .error (VErr.unknownFormat format)
      ∧ outputAndFormat name none format = .error (VErr.unknownFormat format)) := by
  refine ⟨?_, ?_, ?_, ?_, ?_, ?_, ?_⟩
  · show outputAndFormat name none (strBytes "infer") = _
    have : name ++ 0x2E :: strBytes "tar.gz" = name ++ strBytes ".tar.gz" := by
      congr 1
    simp [outputAndFormat, this, pure, Except.pure, Bind.bind, Except.bind]
  · intro h
    simp [outputAndFormat, h, pure, Except.pure, Bind.bind, Except.bind]
  · intro h
    have hzip : endsWith o (strBytes ".zip") = false := by
      rcases h with h | h
      · exact endsWith_false_of_getLast (c := 0x7A) (d := 0x70)
          (endsWith_getLast h (by decide)) (by decide) (by decide)
      · exact endsWith_false_of_getLast (c := 0x7A) (d := 0x70)
          (endsWith_getLast h (by decide)) (by decide) (by decide)
    rcases h with h | h <;> simp [outputAndFormat, h, hzip, pure, Except.pure, Bind.bind, Except.bind]
  · intro h
    have hlast : o.getLast? = some 0x32 := by
      rcases h with h | h
      · exact endsWith_getLast h (by decide)
      · exact endsWith_getLast h (by decide)
    have hzip : endsWith o (strBytes ".zip") = false :=
      endsWith_false_of_getLast (d := 0x70) hlast (by decide) (by decide)
    have htgz1 : endsWith o (strBytes ".tar.gz") = false :=
      endsWith_false_of_getLast (d := 0x7A) hlast (by decide) (by decide)
    have htgz2 : endsWith o (strBytes ".tgz") = false :=
      endsWith_false_of_getLast (d := 0x7A) hlast (by decide) (by decide)
    rcases h with h | h <;> simp [outputAndFormat, h, hzip, htgz1, htgz2, pure, Except.pure, Bind.bind, Except.bind]
  · rintro ⟨h, h1, h2⟩
    have hlast : o.getLast? = some 0x72 := endsWith_getLast h (by decide)
    have hzip : endsWith o (strBytes ".zip") = false :=
      endsWith_false_of_getLast (d := 0x70) hlast (by decide) (by decide)
    have htgz2 : endsWith o (strBytes ".tgz") = false :=
      endsWith_false_of_getLast (d := 0x7A) hlast (by decide) (by decide)
    have htbz2 : endsWith o (strBytes ".tbz2") = false :=
      endsWith_false_of_getLast (d := 0x32) hlast (by decide) (by decide)
    simp [outputAndFormat, h, h1, h2, hzip, htgz2, htbz2, pure, Except.pure, Bind.bind, Except.bind]
  · intro h1 h2 h3 h4 h5 h6
    simp [outputAndFormat, h1, h2, h3, h4, h5, h6, throw, throwThe, MonadExceptOf.throw,
      Functor.map, Except.map]
  · intro hne hmem
    constructor <;>
      simp [outputAndFormat, hne, hmem, throw, throwThe, MonadExceptOf.throw,
        Functor.map, Except.map]

theorem C8_witness :
    outputAndFormat (strBytes "env") (some (strBytes "foo.zip")) (strBytes "infer")
      = .ok (strBytes "foo.zip", strBytes "zip")
  ∧ outputAndFormat (strBytes "env") none (strBytes "rar")
      = .error (VErr.unknownFormat (strBytes "rar")) :=
  ⟨(C8_output_format_resolution (strBytes "env") (strBytes "foo.zip") (strBytes "rar")).2.1
      (by decide),
   ((C8_output_format_resolution (strBytes "env") (strBytes "foo.zip")
      (strBytes "rar")).2.2.2.2.2.2 (by decide) (by decide)).2⟩

/-! ### Shebang rewriting: supporting lemmas and C1 -/

theorem takeWhile_append_all {p : Nat → Bool} {l1 l2 : Bytes}
    (h : ∀ c ∈ l1, p c = true) :
    (l1 ++ l2).takeWhile p = l1 ++ l2.takeWhile p := by
  induction l1 with
  | nil => simp
  | cons c l ih =>
    have hc := h c (by simp)
    simp only [List.cons_append, List.takeWhile_cons, hc, if_true]
    rw [ih (fun d hd => h d (by simp [hd]))]

theorem dropWhile_append_all {p : Nat → Bool} {l1 l2 : Bytes}
    (h : ∀ c ∈ l1, p c = true) :
    (l1 ++ l2).dropWhile p = l2.dropWhile p := by
  induction l1 with
  | nil => simp
  | cons c l ih =>
    have hc := h c (by simp)
    simp only [List.cons_append, List.dropWhile_cons, hc, if_true]
    exact ih (fun d hd => h d (by simp [hd]))

theorem execChars_clean_append {cs r : Bytes}
    (h : ∀ c ∈ cs, ¬(c = 0x20 ∨ c = 0x0A ∨ c = 0x0D ∨ c = 0x09) ∧ c ≠ 0x5C) :
    execChars (cs ++ r) = cs ++ execChars r := by
  induction cs with
  | nil => simp
  | cons c cs ih =>
    obtain ⟨hws, hbs⟩ := h c (by simp)
    rw [List.cons_append, execChars]
    simp only [hbs, false_and, if_false, hws, if_true]
    rw [ih (fun d hd => h d (by simp [hd])), List.cons_append]

theorem execChars_stop {r : Bytes}
    (h : r = [] ∨ (∃ t, r = 0x20 :: t) ∨ (∃ t, r = 0x0A :: t)) :
    execChars r = [] := by
  rcases h with h | ⟨t, h⟩ | ⟨t, h⟩ <;> subst h <;> rw [execChars] <;> simp

theorem parseShebang_eq {spaces cs opts tail : Bytes}
    (hsp : ∀ c ∈ spaces, c = 0x20)
    (hcs : ∀ c ∈ cs, ¬(c = 0x20 ∨ c = 0x0A ∨ c = 0x0D ∨ c = 0x09) ∧ c ≠ 0x5C)
    (hopts : opts = [] ∨ ∃ o, opts = 0x20 :: o)
    (hoptsLF : ∀ c ∈ opts, c ≠ 0x0A)
    (htail : tail = [] ∨ ∃ t, tail = 0x0A :: t) :
    parseShebang (strBytes "#!" ++ spaces ++ (0x2F :: cs) ++ opts ++ tail)
      = some (strBytes "#!" ++ spaces ++ (0x2F :: cs) ++ opts, 0x2F :: cs, opts) := by
  have hsb : strBytes "#!" = [0x23, 0x21] := by decide
  rw [hsb]
  show parseShebang (0x23 :: 0x21 :: (spaces ++ (0x2F :: cs) ++ opts ++ tail)) = _
  rw [parseShebang]
  have htw : ((spaces ++ (0x2F :: cs) ++ opts ++ tail).takeWhile (fun c => c == 0x20))
      = spaces := by
    rw [List.append_assoc, List.append_assoc,
        takeWhile_append_all (fun c hc => by simp [hsp c hc])]
    simp [List.takeWhile_cons]
  have hdw : ((spaces ++ (0x2F :: cs) ++ opts ++ tail).dropWhile (fun c => c == 0x20))
      = 0x2F :: (cs ++ opts ++ tail) := by
    rw [List.append_assoc, List.append_assoc,
        dropWhile_append_all (fun c hc => by simp [hsp c hc])]
    simp [List.dropWhile_cons]
  simp only [htw, hdw]
  have hec : execChars (cs ++ opts ++ tail) = cs := by
    rw [List.append_assoc, execChars_clean_append hcs]
    rw [execChars_stop ?stop, List.append_nil]
    case stop =>
      rcases hopts with ho | ⟨o, ho⟩
      · subst ho
        rcases htail with ht | ⟨t, ht⟩
        · left; simp [ht]
        · right; right; exact ⟨t, by simp [ht]⟩
      · right; left; exact ⟨o ++ tail, by simp [ho]⟩
  simp only [hec]
  have hdrop : ((0x2F :: (cs ++ opts ++ tail)).drop (cs.length + 1))
      = opts ++ tail := by
    have heq : (0x2F :: (cs ++ opts ++ tail)) = (0x2F :: cs) ++ (opts ++ tail) := by
      simp
    have hlen : cs.length + 1 = (0x2F :: cs).length := by simp
    rw [heq, hlen, List.drop_left]
  simp only [List.length_cons, hdrop]
  have htw2 : ((opts ++ tail).takeWhile (fun c => c != 0x0A)) = opts := by
    rw [takeWhile_append_all (fun c hc => by simp [hoptsLF c hc])]
    rcases htail with ht | ⟨t, ht⟩
    · simp [ht]
    · simp [ht, List.takeWhile_cons]
  rw [htw2]
  simp

theorem countOcc_pos {pat : Bytes} (hp : pat ≠ []) :
    ∀ (a b : Bytes), 1 ≤ countOcc (a ++ (pat ++ b)) pat := by
  intro a
  induction a with
  | nil =>
    intro b
    cases pat with
    | nil => exact absurd rfl hp
    | cons p0 pt =>
      rw [List.nil_append, List.cons_append, countOcc]
      rw [if_pos ⟨hp, ⟨b, by simp⟩⟩]
      omega
  | cons c a ih =>
    intro b
    rw [List.cons_append, countOcc]
    by_cases hpre : pat ≠ [] ∧ pat <+: (c :: (a ++ (pat ++ b)))
    · rw [if_pos hpre]; omega
    · rw [if_neg hpre]; exact ih b

theorem countOcc_two {pat : Bytes} (hp : pat ≠ []) :
    ∀ (a m b : Bytes), 2 ≤ countOcc (a ++ (pat ++ (m ++ (pat ++ b)))) pat := by
  intro a
  induction a with
  | nil =>
    intro m b
    cases hpat : pat with
    | nil => exact absurd hpat hp
    | cons p0 pt =>
      rw [List.nil_append, List.cons_append, countOcc]
      rw [if_pos ⟨by simp, ⟨m ++ ((p0 :: pt) ++ b), by simp⟩⟩]
      have hdrop : ((pt ++ (m ++ ((p0 :: pt) ++ b))).drop ((p0 :: pt).length - 1))
          = m ++ ((p0 :: pt) ++ b) := by
        have : (p0 :: pt).length - 1 = pt.length := by simp
        rw [this, List.drop_left]
      rw [hdrop]
      have := @countOcc_pos (p0 :: pt) (by simp) m b
      omega
  | cons c a ih =>
    intro m b
    rw [List.cons_append, countOcc]
    by_cases hpre : pat ≠ [] ∧ pat <+: (c :: (a ++ (pat ++ (m ++ (pat ++ b)))))
    · rw [if_pos hpre]
      have hsplit : a ++ (pat ++ (m ++ (pat ++ b)))
          = (a ++ (pat ++ m)) ++ (pat ++ b) := by
        simp [List.append_assoc]
      have hlen : pat.length - 1 ≤ (a ++ (pat ++ m)).length := by
        simp [List.length_append]
        omega
      have hdrop : ((a ++ (pat ++ (m ++ (pat ++ b)))).drop (pat.length - 1))
          = ((a ++ (pat ++ m)).drop (pat.length - 1)) ++ (pat ++ b) := by
        rw [hsplit, List.drop_append_eq_append_drop]
        rw [Nat.sub_eq_zero_of_le hlen, List.drop_zero]
      rw [hdrop]
      have := countOcc_pos hp ((a ++ (pat ++ m)).drop (pat.length - 1)) b
      omega
    · rw [if_neg hpre]
      exact ih m b

theorem replaceAll_head {pat rest new : Bytes} (hp : pat ≠ []) :
    replaceAll (pat ++ rest) pat new = new ++ replaceAll rest pat new := by
  cases pat with
  | nil => exact absurd rfl hp
  | cons p0 pt =>
    rw [List.cons_append, replaceAll]
    rw [if_pos ⟨by simp, ⟨rest, by simp⟩⟩]
    have hdrop : ((pt ++ rest).drop ((p0 :: pt).length - 1)) = rest := by
      have : (p0 :: pt).length - 1 = pt.length := by simp
      rw [this, List.drop_left]
    rw [hdrop]

theorem replaceAll_no_occ {s pat new : Bytes} (h : ¬ OccursIn s pat) :
    replaceAll s pat new = s := by
  induction s with
  | nil => rw [replaceAll]
  | cons c rest ih =>
    rw [replaceAll]
    rw [if_neg ?hneg]
    · rw [ih (fun hocc => by
        obtain ⟨a, b, hab⟩ := hocc
        exact h ⟨c :: a, b, by simp [hab]⟩)]
    case hneg =>
      rintro ⟨hpne, t, ht⟩
      exact h ⟨[], t, by simp [← ht]⟩

theorem rewrite_shebang_pos {spaces cs opts tail pfx : Bytes} (target : Bytes)
    (hsp : ∀ c ∈ spaces, c = 0x20)
    (hcs : ∀ c ∈ cs, ¬(c = 0x20 ∨ c = 0x0A ∨ c = 0x0D ∨ c = 0x09) ∧ c ≠ 0x5C)
    (hopts : opts = [] ∨ ∃ o, opts = 0x20 :: o)
    (hoptsLF : ∀ c ∈ opts, c ≠ 0x0A)
    (htail : tail = [] ∨ ∃ t, tail = 0x0A :: t)
    (hpfx : pfx <+: (0x2F :: cs)) (hpne : pfx ≠ [])
    (hcount : countOcc (strBytes "#!" ++ spaces ++ (0x2F :: cs) ++ opts ++ tail) pfx ≤ 1) :
    rewrite_shebang (strBytes "#!" ++ spaces ++ (0x2F :: cs) ++ opts ++ tail) target pfx
      = (strBytes "#!/usr/bin/env " ++ lastComp (0x2F :: cs) ++ opts ++ tail, true) := by
  have hps := parseShebang_eq hsp hcs hopts hoptsLF htail
  rw [rewrite_shebang, hps]
  have hc1 : ¬ (1 < countOcc (strBytes "#!" ++ spaces ++ (0x2F :: cs) ++ opts ++ tail) pfx) := by
    omega
  have hsw : startsWith (0x2F :: cs) pfx = true := by simp [startsWith, hpfx]
  simp only [if_neg hc1, hsw, if_true]
  have hshne : strBytes "#!" ++ spaces ++ (0x2F :: cs) ++ opts ≠ [] := by
    simp [strBytes]
  have hdata : strBytes "#!" ++ spaces ++ (0x2F :: cs) ++ opts ++ tail
      = (strBytes "#!" ++ spaces ++ (0x2F :: cs) ++ opts) ++ tail := by
    simp [List.append_assoc]
  have hnocc : ¬ OccursIn tail (strBytes "#!" ++ spaces ++ (0x2F :: cs) ++ opts) := by
    rintro ⟨u, v, huv⟩
    obtain ⟨pr, hpr⟩ := hpfx
    have h2 := countOcc_two hpne (strBytes "#!" ++ spaces)
      (pr ++ (opts ++ (u ++ (strBytes "#!" ++ spaces))))
      (pr ++ (opts ++ v))
    have heq : (strBytes "#!" ++ spaces) ++
        (pfx ++ ((pr ++ (opts ++ (u ++ (strBytes "#!" ++ spaces)))) ++
          (pfx ++ (pr ++ (opts ++ v)))))
        = strBytes "#!" ++ spaces ++ (0x2F :: cs) ++ opts ++ tail := by
      rw [huv, ← hpr]
      simp [List.append_assoc]
    rw [heq] at h2
    omega
  rw [hdata, replaceAll_head hshne, replaceAll_no_occ hnocc]

/-- C1: for a manifest entry whose target lies in the binary directory
and whose source is a regular file (not a directory, not a symlink),
`Packer.add` emits the file's bytes passed through `rewrite_shebang`;
those bytes have the shebang line rewritten to
`#!/usr/bin/env <basename><options>` when the shebang's absolute
executable path starts with the environment prefix and the prefix
occurs at most once in the whole file, and are byte-identical to the
source when no shebang line is present, or the executable path does not
start with the prefix, or the prefix occurs more than once. -/
theorem C1_shebang_rewrite (rewrites : List (Bytes × Bytes)) (pfx : Bytes)
    (src : SrcInfo) (f : File)
    (hfile : src.kind = SrcKind.file)
    (hbin : strBytes "bin/" <+: f.target) :
    (Packer.add rewrites pfx src f
        = ArcOp.addBytes f.source (rewrite_shebang src.content f.target pfx).1 f.target)
  ∧ (∀ spaces cs opts tail,
      src.content = strBytes "#!" ++ spaces ++ (0x2F :: cs) ++ opts ++ tail →
      (∀ c ∈ spaces, c = 0x20) →
      (∀ c ∈ cs, ¬(c = 0x20 ∨ c = 0x0A ∨ c = 0x0D ∨ c = 0x09) ∧ c ≠ 0x5C) →
      (opts = [] ∨ ∃ o, opts = 0x20 :: o) →
      (∀ c ∈ opts, c ≠ 0x0A) →
      (tail = [] ∨ ∃ t, tail = 0x0A :: t) →
      pfx <+: (0x2F :: cs) → pfx ≠ [] →
      countOcc src.content pfx ≤ 1 →
      (rewrite_shebang src.content f.target pfx).1
        = strBytes "#!/usr/bin/env " ++ lastComp (0x2F :: cs) ++ opts ++ tail)
  ∧ (parseShebang src.content = none →
      (rewrite_shebang src.content f.target pfx).1 = src.content)
  ∧ (∀ shebang exe opts2,
      parseShebang src.content = some (shebang, exe, opts2) →
      (1 < countOcc src.content pfx ∨ ¬ (pfx <+: exe)) →
      (rewrite_shebang src.content f.target pfx).1 = src.content) := by
  refine ⟨?_, ?_, ?_, ?_⟩
  · have hsw : startsWith f.target BIN_DIR = true := by
      obtain ⟨t, ht⟩ := hbin
      have hb : BIN_DIR ++ (0x2F :: t) = f.target := by
        rw [← ht]
        have : strBytes "bin/" = BIN_DIR ++ [0x2F] := by decide
        rw [this, List.append_assoc]
        rfl
      simp only [startsWith, decide_eq_true_eq]
      exact ⟨0x2F :: t, hb⟩
    have hlink : src.islink = false := by simp [SrcInfo.islink, hfile]
    have hdir : src.isdir = false := by simp [SrcInfo.isdir, hfile]
    rw [Packer.add, if_neg (by simp [hlink]), if_pos (by simp [hsw, hdir, hlink])]
  · intro spaces cs opts tail hcontent hsp hcs hopts hoptsLF htail hpfx hpne hcount
    rw [hcontent] at hcount ⊢
    rw [rewrite_shebang_pos f.target hsp hcs hopts hoptsLF htail hpfx hpne hcount]
  · intro hnone
    rw [rewrite_shebang, hnone]
  · intro shebang exe opts2 hps hbad
    rw [rewrite_shebang, hps]
    by_cases hc : 1 < countOcc src.content pfx
    · simp [hc]
    · have hnp : ¬ (pfx <+: exe) := by
        rcases hbad with hbad | hbad
        · exact absurd hbad hc
        · exact hbad
      simp [hc, startsWith, hnp]

theorem C1_witness :
    Packer.add [] (strBytes "/env") src0 f0
      = ArcOp.addBytes (strBytes "/env/bin/pip")
          (rewrite_shebang src0.content (strBytes "bin/pip") (strBytes "/env")).1
          (strBytes "bin/pip")
  ∧ (rewrite_shebang src0.content (strBytes "bin/pip") (strBytes "/env")).1
      = strBytes "#!/usr/bin/env python3.7 -O\nrest" := by
  have h := C1_shebang_rewrite [] (strBytes "/env") src0 f0 (by rfl) (by decide)
  constructor
  · have := h.1
    simpa [f0] using this
  · have hcnt : countOcc src0.content (strBytes "/env") = 1 := by
      simp [src0, countOcc, strBytes, List.cons_prefix_cons]
    have h2 := h.2.1 [] (strBytes "env/bin/python3.7") (strBytes " -O") (strBytes "\nrest")
      (by decide) (by decide) (by decide)
      (Or.inr ⟨strBytes "-O", by decide⟩) (by decide)
      (Or.inr ⟨strBytes "rest", by decide⟩)
      (by decide) (by decide) (by omega)
    have hf0 : f0.target = strBytes "bin/pip" := by rfl
    rw [hf0] at h2
    rw [h2]
    decide

/-! ### Editable-package check: supporting lemmas and C5 -/

/- sorting lemmas -/
theorem mem_insertSorted {x a : Bytes} : ∀ {l : List Bytes},
    a ∈ insertSorted x l ↔ a = x ∨ a ∈ l := by
  intro l
  induction l with
  | nil => simp [insertSorted]
  | cons y ys ih =>
    rw [insertSorted]
    by_cases h : bytesLe x y
    · simp [h]
    · simp only [h, if_false, Bool.false_eq_true, List.mem_cons, ih]
      tauto

theorem pairwise_insertSorted {x : Bytes} : ∀ {l : List Bytes},
    l.Pairwise (fun a b => bytesLe a b = true) →
    (insertSorted x l).Pairwise (fun a b => bytesLe a b = true) := by
  intro l
  induction l with
  | nil => intro _; simp [insertSorted]
  | cons y ys ih =>
    intro h
    rw [List.pairwise_cons] at h
    rw [insertSorted]
    by_cases hxy : bytesLe x y
    · rw [if_pos hxy, List.pairwise_cons]
      refine ⟨?_, List.pairwise_cons.mpr h⟩
      intro z hz
      rcases List.mem_cons.mp hz with rfl | hz
      · exact hxy
      · have hyz := h.1 z hz
        simp only [bytesLe, decide_eq_true_eq] at hxy hyz ⊢
        exact le_trans hxy hyz
    · rw [if_neg hxy, List.pairwise_cons]
      refine ⟨?_, ih h.2⟩
      intro z hz
      rcases mem_insertSorted.mp hz with rfl | hz
      · simp only [bytesLe, decide_eq_true_eq] at hxy ⊢
        exact le_of_not_le hxy
      · exact h.1 z hz

theorem mem_sortBytes {a : Bytes} : ∀ {l : List Bytes}, a ∈ sortBytes l ↔ a ∈ l := by
  intro l
  induction l with
  | nil => simp [sortBytes]
  | cons x xs ih => rw [sortBytes]; simp [mem_insertSorted, ih]

theorem sortBytes_sorted : ∀ (l : List Bytes),
    (sortBytes l).Pairwise (fun a b => bytesLe a b = true) := by
  intro l
  induction l with
  | nil => simp [sortBytes]
  | cons x xs ih => rw [sortBytes]; exact pairwise_insertSorted ih

/-- C5 fails as stated: a `.pth` line `/envelope/x` resolves outside the
environment root `/env` (it is not path-rooted under it), yet
`check_no_editable_packages` accepts it, because the code tests
`location.startswith(prefix)` as a *string* and `/envelope/x` begins
with the string `/env`. -/
theorem C5_counterexample :
    lineOutsideRoot (strBytes "/env") (pthDirname ctx5) (strBytes "/envelope/x\n")
  ∧ check_no_editable_packages ctx5 [[strBytes "/envelope/x\n"]] = Except.ok () := by
  constructor
  · refine ⟨by decide, by decide, ?_⟩
    rintro (h | h)
    · exact absurd h (by decide)
    · exact absurd h (by decide)
  · decide

/-- C5 (amended): the editable-package check fails (with the single
domain error) iff some non-comment line of some `.pth` file, nonempty
after stripping trailing whitespace, resolves to a normalized path that
does not start, as a string, with the environment prefix; the error then
lists exactly the offending (stripped) lines, deduplicated and sorted. -/
theorem C5_editable_check (ctx : Context) (pths : List (List Bytes)) :
    (check_no_editable_packages ctx pths = Except.ok ()
        ↔ ∀ lines ∈ pths, ∀ line ∈ lines,
            pthLineEditable ctx.pfx (pthDirname ctx) line = none)
  ∧ (∀ l, check_no_editable_packages ctx pths = Except.error (VErr.editablePackages l) →
        l.Pairwise (fun a b => bytesLe a b = true)
      ∧ (∀ e, e ∈ l ↔ ∃ lines ∈ pths, ∃ line ∈ lines,
            pthLineEditable ctx.pfx (pthDirname ctx) line = some e))
  ∧ (∀ e, check_no_editable_packages ctx pths = Except.error e →
        ∃ l, e = VErr.editablePackages l) := by
  refine ⟨?_, ?_, ?_⟩
  · rw [check_no_editable_packages]
    by_cases h : ((pths.flatMap (fun lines =>
        lines.filterMap (pthLineEditable ctx.pfx (pthDirname ctx)))).dedup) ≠ []
    · rw [if_pos h]
      simp only [List.dedup_eq_nil, ne_eq] at h
      constructor
      · intro hc; exact absurd hc (by simp)
      · intro hall
        exfalso
        apply h
        rw [List.flatMap_eq_nil_iff]
        intro lines hlines
        rw [List.filterMap_eq_nil_iff]
        intro line hline
        exact hall lines hlines line hline
    · rw [if_neg h]
      simp only [ne_eq, not_not, List.dedup_eq_nil, List.flatMap_eq_nil_iff,
        List.filterMap_eq_nil_iff] at h
      simp only [true_iff]
      intro lines hlines line hline
      exact h lines hlines line hline
  · intro l hl
    rw [check_no_editable_packages] at hl
    split at hl
    · simp only [Except.error.injEq, VErr.editablePackages.injEq] at hl
      subst hl
      refine ⟨sortBytes_sorted _, ?_⟩
      intro e
      rw [mem_sortBytes, List.mem_dedup, List.mem_flatMap]
      constructor
      · rintro ⟨lines, hlines, hmem⟩
        obtain ⟨line, hline, heq⟩ := List.mem_filterMap.mp hmem
        exact ⟨lines, hlines, line, hline, heq⟩
      · rintro ⟨lines, hlines, line, hline, heq⟩
        exact ⟨lines, hlines, List.mem_filterMap.mpr ⟨line, hline, heq⟩⟩
    · exact absurd hl (by simp)
  · intro e he
    rw [check_no_editable_packages] at he
    split at he
    · simp only [Except.error.injEq] at he
      exact ⟨_, he.symm⟩
    · exact absurd he (by simp)

theorem C5_witness :
    let res := check_no_editable_packages ctx5 [[strBytes "/outside/pkg\n"]]
    res = Except.error (VErr.editablePackages [strBytes "/outside/pkg"])
  ∧ ([strBytes "/outside/pkg"].Pairwise (fun a b => bytesLe a b = true)
      ∧ ∀ e, e ∈ [strBytes "/outside/pkg"] ↔
          ∃ lines ∈ [[strBytes "/outside/pkg\n"]], ∃ line ∈ lines,
            pthLineEditable ctx5.pfx (pthDirname ctx5) line = some e) :=
  ⟨by decide,
   (C5_editable_check ctx5 [[strBytes "/outside/pkg\n"]]).2.1
     [strBytes "/outside/pkg"] (by decide)⟩

/-! ### Discovery: supporting lemmas and C4 -/

theorem check_venv_ok_kind {fs : DiscoveryFs} {pfx : Bytes} {c : Context}
    (h : check_venv fs pfx = Except.ok c) : c.kind = Kind.venv ∧ c.pfx = pfx := by
  rw [check_venv] at h
  split at h
  · simp at h
  · split at h
    · simp at h
    · split at h
      · simp at h
      · simp only [Except.ok.injEq] at h
        rw [← h]
        exact ⟨rfl, rfl⟩

theorem check_virtualenv_ok_kind {fs : DiscoveryFs} {pfx : Bytes} {c : Context}
    (h : check_virtualenv fs pfx = Except.ok c) :
    c.kind = Kind.virtualenv ∧ c.pfx = pfx := by
  rw [check_virtualenv] at h
  split at h
  · simp at h
  · split at h
    · simp at h
    · simp only [Except.ok.injEq] at h
      rw [← h]
      exact ⟨rfl, rfl⟩

/-- C4 (amended): discovery resolves no-argument through the activation
context; a missing path is the domain error; the venv check is tried
first and its success wins (kind `venv`), else the virtualenv check
(kind `virtualenv`); when both layout checks fail with the domain error,
discovery fails with the domain error — in each case provided the checks
themselves terminate with the domain error and not a leaked parse error. -/
theorem C4_discovery (envVar : Option Bytes) (fs : DiscoveryFs) (pfx : Bytes) :
    ( check_prefix none none fs = Except.error (PyErr.venvPack VErr.notCurrentEnv))
  ∧ (fs.pathExists = false →
      check_prefix envVar (some pfx) fs
        = Except.error (PyErr.venvPack (VErr.pathMissing pfx)))
  ∧ (∀ c, fs.pathExists = true → check_venv fs pfx = Except.ok c →
      check_prefix envVar (some pfx) fs = Except.ok c
        ∧ c.kind = Kind.venv ∧ c.pfx = pfx)
  ∧ (∀ e c, fs.pathExists = true →
      check_venv fs pfx = Except.error (PyErr.venvPack e) →
      check_virtualenv fs pfx = Except.ok c →
      check_prefix envVar (some pfx) fs = Except.ok c
        ∧ c.kind = Kind.virtualenv ∧ c.pfx = pfx)
  ∧ (∀ e1 e2, fs.pathExists = true →
      check_venv fs pfx = Except.error (PyErr.venvPack e1) →
      check_virtualenv fs pfx = Except.error (PyErr.venvPack e2) →
      check_prefix envVar (some pfx) fs
        = Except.error (PyErr.venvPack (VErr.invalidEnv pfx)))
  ∧ (envVar = some pfx →
      check_prefix envVar none fs = check_prefix envVar (some pfx) fs) := by
  refine ⟨?_, ?_, ?_, ?_, ?_, ?_⟩
  · rw [ check_prefix]
  · intro hex
    rw [ check_prefix]
    simp [hex]
  · intro c hex hok
    obtain ⟨hk, hp⟩ := check_venv_ok_kind hok
    refine ⟨?_, hk, hp⟩
    rw [ check_prefix, hok]
    simp [hex]
  · intro e c hex herr hok
    obtain ⟨hk, hp⟩ := check_virtualenv_ok_kind hok
    refine ⟨?_, hk, hp⟩
    rw [ check_prefix]
    simp only [hex]
    rw [herr, hok]
    simp [PyErr.isVenvPack]
  · intro e1 e2 hex h1 h2
    rw [ check_prefix]
    simp only [hex]
    rw [h1, h2]
    simp [PyErr.isVenvPack]
  · intro hev
    rw [hev]
    rfl

/-- C4 fails as stated: with a `pyvenv.cfg` whose first line has no `=`,
`check_venv` crashes with an uncaught `ValueError` (the `key, val =
line.split('=')` unpacking), which is not the domain error, and the
virtualenv check — which would succeed on this environment — is never
tried. -/
theorem C4_counterexample :
    check_prefix none (some (strBytes "/env")) fs4 = Except.error PyErr.valueError
  ∧ (∃ c, check_virtualenv fs4 (strBytes "/env") = Except.ok c) := by
  constructor
  · decide
  · exact ⟨⟨Kind.virtualenv, strBytes "/env", strBytes "/usr",
      strBytes "lib/python3.7", strBytes "include/python3.7"⟩, by decide⟩

theorem C4_witness :
    check_prefix none (some (strBytes "/env")) fsVenv
      = Except.ok ⟨Kind.venv, strBytes "/env", strBytes "/usr",
          strBytes "lib/python3.7", strBytes "include/python3.7"⟩ := by
  have h := (C4_discovery none fsVenv (strBytes "/env")).2.2.1
    ⟨Kind.venv, strBytes "/env", strBytes "/usr",
     strBytes "lib/python3.7", strBytes "include/python3.7"⟩
    (by decide) (by decide)
  exact h.1

/-! ### Manifest enumeration: supporting lemmas, C3 and C7 -/

/-- C3: evaluation of `load_environment` filtering on a venv tree.  The
activation scripts and backup-suffix files are dropped, but the layout
origin marker `pyvenv.cfg` stays in the manifest: the removal set stores
`join(context.prefix, 'pyvenv.cfg')` — an absolute path — which can
never equal the relative target `pyvenv.cfg` being filtered. -/
theorem C3_marker_file_retained :
    load_environment_targets ctx0 top3 = [strBytes "pyvenv.cfg", strBytes "bin/pip"]
  ∧ strBytes "pyvenv.cfg" ∈ load_environment_targets ctx0 top3
  ∧ strBytes "bin/activate" ∉ load_environment_targets ctx0 top3
  ∧ strBytes "bin/junk~" ∉ load_environment_targets ctx0 top3 := by
  have heval : load_environment_targets ctx0 top3
      = [strBytes "pyvenv.cfg", strBytes "bin/pip"] := by
    have hw : walkDir (strBytes "bin")
          [(strBytes "activate", FsNode.file),
           (strBytes "pip", FsNode.file),
           (strBytes "junk~", FsNode.file)]
        = [strBytes "bin/activate", strBytes "bin/pip", strBytes "bin/junk~"] := by
      rw [walkDir, walkSub, walkSub, walkSub, walkSub]
      all_goals first
        | (rintro name ch h; simp at h)
        | decide
    rw [load_environment_targets, load_environment_res]
    simp only [top3, List.flatMap_cons, List.flatMap_nil, hw]
    decide
  refine ⟨heval, ?_, ?_, ?_⟩ <;> rw [heval] <;> decide

theorem startsWith_slash_iff {b : Bytes} :
    startsWith b (strBytes "/") = true ↔ b.head? = some 0x2F := by
  constructor
  · intro h
    obtain ⟨t, ht⟩ := of_decide_eq_true h
    rw [← ht]
    rfl
  · intro h
    cases b with
    | nil => simp at h
    | cons c rest =>
      simp only [List.head?_cons, Option.some.injEq] at h
      subst h
      exact decide_eq_true ⟨rest, rfl⟩

theorem osJoin_eq {a b : Bytes} (ha : a ≠ []) (ha2 : a.getLast? ≠ some 0x2F)
    (hb : b.head? ≠ some 0x2F) : osJoin a b = a ++ 0x2F :: b := by
  rw [osJoin]
  rw [if_neg (by
    intro hc
    exact hb (startsWith_slash_iff.mp hc))]
  rw [if_neg (by
    rintro (hc | hc)
    · exact ha hc
    · exact ha2 hc)]

theorem head?_ne_slash_of_wf {n : Bytes} (h : wfName n) : n.head? ≠ some 0x2F := by
  intro hc
  cases n with
  | nil => simp at hc
  | cons c rest =>
    simp only [List.head?_cons, Option.some.injEq] at hc
    exact h.2.1 (by rw [hc]; exact List.mem_cons_self _ _)

theorem getLast?_ne_slash_of_wf {n : Bytes} (h : wfName n) : n.getLast? ≠ some 0x2F := by
  intro hc
  exact h.2.1 (by
    have := List.mem_of_mem_getLast? hc
    exact this)

theorem append_cons_ne_nil {a : Bytes} {c : Nat} {b : Bytes} : a ++ c :: b ≠ [] := by
  simp

theorem getLast?_append_cons {a : Bytes} {c : Nat} {b : Bytes} :
    (a ++ c :: b).getLast? = (c :: b).getLast? :=
  List.getLast?_append_of_ne_nil a (by simp)

theorem safe_of_shape {n t : Bytes} (hn : wfName n)
    (h : t = n ∨ ∃ m, t = n ++ 0x2F :: m) : targetSafe t := by
  obtain ⟨hne, hslash, hdot, hdotdot⟩ := hn
  rcases h with rfl | ⟨m, rfl⟩
  · refine ⟨head?_ne_slash_of_wf ⟨hne, hslash, hdot, hdotdot⟩, hdotdot, ?_⟩
    rintro ⟨r, hr⟩
    apply hslash
    rw [← hr]
    simp [strBytes]
  · constructor
    · cases n with
      | nil => exact absurd rfl hne
      | cons c rest =>
        simp only [List.cons_append, List.head?_cons, Option.some.injEq]
        intro hc
        have hc' := Option.some.inj hc
        subst hc'
        exact absurd (List.mem_cons_self _ _) hslash
    · constructor
      · intro hc
        have h47 : (0x2F : Nat) ∈ n ++ 0x2F :: m := by simp
        rw [hc] at h47
        simp [strBytes] at h47
      · rintro ⟨r, hr⟩
        rcases n with _ | ⟨a, _ | ⟨b, n'⟩⟩
        · exact absurd rfl hne
        · simp [strBytes] at hr
        · rcases n' with _ | ⟨c, n''⟩
          · apply hdotdot
            simp only [List.cons_append, List.nil_append] at hr
            have h1 : a = 0x2E := by
              have := congrArg (fun l => l.head?) hr
              simp [strBytes] at this
              omega
            have h2 : b = 0x2E := by
              have := congrArg (fun l => l.get? 1) hr
              simp [strBytes] at this
              omega
            rw [h1, h2]
            rfl
          · apply hslash
            have : c = 0x2F := by
              have := congrArg (fun l => l.get? 2) hr
              simp [strBytes] at this
              omega
            rw [this]
            simp

mutual

theorem walkDir_shape (root2 : Bytes) (children : List (Bytes × FsNode))
    (hw : WfChildren children) (h1 : root2 ≠ []) (h2 : root2.getLast? ≠ some 0x2F) :
    ∀ t ∈ walkDir root2 children, t = root2 ∨ ∃ m, t = root2 ++ 0x2F :: m := by
  intro t ht
  rw [walkDir] at ht
  rcases List.mem_append.mp ht with hin | hsub
  · split at hin
    · rcases List.mem_singleton.mp hin with rfl
      exact Or.inl rfl
    · rcases List.mem_append.mp hin with hml | hml <;>
      · obtain ⟨c, hc, hcj⟩ := List.mem_map.mp hml
        have hcmem : c ∈ children := List.mem_of_mem_filter (by
          first
            | exact hc
            | exact List.mem_of_mem_filter hc)
        have hwf := (hw c hcmem).1
        right
        exact ⟨c.1, by rw [← hcj, osJoin_eq h1 h2 (head?_ne_slash_of_wf hwf)]⟩
  · obtain ⟨m, hm⟩ := walkSub_shape root2 children hw h1 h2 t hsub
    exact Or.inr ⟨m, hm⟩
termination_by (sizeOf children, 1)

theorem walkSub_shape (root2 : Bytes) (l : List (Bytes × FsNode))
    (hw : WfChildren l) (h1 : root2 ≠ []) (h2 : root2.getLast? ≠ some 0x2F) :
    ∀ t ∈ walkSub root2 l, ∃ m, t = root2 ++ 0x2F :: m := by
  intro t ht
  match l with
  | [] =>
    rw [walkSub] at ht
    simp at ht
  | (name, FsNode.dir ch) :: rest =>
    rw [walkSub] at ht
    have hwf : wfName name := (hw _ (List.mem_cons_self _ _)).1
    rcases List.mem_append.mp ht with hd | hr
    · have hj : osJoin root2 name = root2 ++ 0x2F :: name :=
        osJoin_eq h1 h2 (head?_ne_slash_of_wf hwf)
      have hj1 : osJoin root2 name ≠ [] := by rw [hj]; simp
      have hj2 : (osJoin root2 name).getLast? ≠ some 0x2F := by
        rw [hj, getLast?_append_cons]
        cases hname : name with
        | nil => exact absurd hname hwf.1
        | cons n0 ns =>
          rw [List.getLast?_cons_cons]
          rw [← hname]
          exact getLast?_ne_slash_of_wf hwf
      have hwch : WfChildren ch := by
        have hnode := (hw _ (List.mem_cons_self _ _)).2
        rw [wfNode] at hnode
        exact hnode
      rcases walkDir_shape (osJoin root2 name) ch hwch hj1 hj2 t hd with rfl | ⟨m, hm⟩
      · exact ⟨name, hj⟩
      · exact ⟨name ++ 0x2F :: m, by rw [hm, hj]; simp⟩
    · exact walkSub_shape root2 rest (fun c hc => hw c (List.mem_cons_of_mem _ hc)) h1 h2 t hr
  | (name, FsNode.file) :: rest =>
    rw [walkSub] at ht
    case x => rintro n2 ch hx; exact absurd hx (by simp)
    exact walkSub_shape root2 rest (fun c hc => hw c (List.mem_cons_of_mem _ hc)) h1 h2 t ht
  | (name, FsNode.linkFile) :: rest =>
    rw [walkSub] at ht
    case x => rintro n2 ch hx; exact absurd hx (by simp)
    exact walkSub_shape root2 rest (fun c hc => hw c (List.mem_cons_of_mem _ hc)) h1 h2 t ht
  | (name, FsNode.linkDir) :: rest =>
    rw [walkSub] at ht
    case x => rintro n2 ch hx; exact absurd hx (by simp)
    exact walkSub_shape root2 rest (fun c hc => hw c (List.mem_cons_of_mem _ hc)) h1 h2 t ht
termination_by (sizeOf l, 0)

end

theorem splitByte_ne_nil (sep : Nat) (s : Bytes) : splitByte sep s ≠ [] := by
  cases s with
  | nil => simp [splitByte]
  | cons c rest =>
    rw [splitByte]
    cases splitByte sep rest with
    | nil => simp
    | cons g gs =>
      by_cases h : c = sep <;> simp [h]

theorem splitByte_append_sep (sep : Nat) (x y : Bytes) :
    splitByte sep (x ++ sep :: y) = splitByte sep x ++ splitByte sep y := by
  induction x with
  | nil =>
    rw [List.nil_append]
    cases hsy : splitByte sep y with
    | nil => exact absurd hsy (splitByte_ne_nil sep y)
    | cons g gs =>
      conv_lhs => rw [splitByte]
      rw [hsy]
      simp [splitByte]
  | cons c x ih =>
    rw [List.cons_append, splitByte, ih]
    cases hsx : splitByte sep x with
    | nil => exact absurd hsx (splitByte_ne_nil sep x)
    | cons g gs =>
      rw [splitByte, hsx]
      by_cases h : c = sep <;> simp [h]

theorem pathComps_append (x y : Bytes) :
    pathComps (x ++ 0x2F :: y) = pathComps x ++ pathComps y := by
  simp [pathComps, splitByte_append_sep, List.filter_append]

theorem splitByte_no_sep {sep : Nat} {s : Bytes} (h : sep ∉ s) :
    splitByte sep s = [s] := by
  induction s with
  | nil => rfl
  | cons c rest ih =>
    rw [splitByte, ih (fun hc => h (List.mem_cons_of_mem _ hc))]
    have hc : ¬ (c = sep) := fun hc => h (by rw [hc]; exact List.mem_cons_self _ _)
    simp [hc]

theorem pathComps_single {s : Bytes} (h1 : (0x2F : Nat) ∉ s) (h2 : s ≠ []) :
    pathComps s = [s] := by
  rw [pathComps, splitByte_no_sep h1]
  simp [h2]

theorem commonLen_self_append : ∀ (sl rest : List Bytes),
    commonLen sl (sl ++ rest) = sl.length := by
  intro sl
  induction sl with
  | nil => intro rest; rfl
  | cons a as ih =>
    intro rest
    rw [List.cons_append, commonLen, if_pos rfl, ih]
    simp only [List.length_cons]
    omega

theorem relpath_append (pfx rel : Bytes) (h : pathComps rel ≠ []) :
    relpath (pfx ++ 0x2F :: rel) pfx = List.intercalate [0x2F] (pathComps rel) := by
  rw [relpath]
  simp only [pathComps_append, commonLen_self_append, Nat.sub_self,
    List.replicate_zero, List.nil_append, List.drop_left]
  rw [if_neg h]

theorem safe_of_head {t : Bytes} {c : Nat} (h : t.head? = some c)
    (h47 : c ≠ 0x2F) (h46 : c ≠ 0x2E) : targetSafe t := by
  refine ⟨?_, ?_, ?_⟩
  · rw [h]
    intro hc
    exact h47 (Option.some.inj hc)
  · intro he
    rw [he] at h
    exact h46 (Option.some.inj h).symm
  · rintro ⟨r, hr⟩
    rw [← hr] at h
    exact h46 (Option.some.inj h).symm

theorem finish_relpath_eq {pfx ver : Bytes} (hver : wfName ver)
    (hpfx1 : pfx ≠ []) (hpfx2 : pfx.getLast? ≠ some 0x2F) :
    relpath (osJoin (osJoin pfx (osJoin (strBytes "lib") ver))
        (strBytes "orig-prefix.txt")) pfx
      = strBytes "lib" ++ 0x2F :: (ver ++ 0x2F :: strBytes "orig-prefix.txt") := by
  have hlib : osJoin (strBytes "lib") ver = strBytes "lib" ++ 0x2F :: ver :=
    osJoin_eq (by decide) (by decide) (head?_ne_slash_of_wf hver)
  have hlibne : osJoin (strBytes "lib") ver ≠ [] := by rw [hlib]; simp
  have hlibh : (osJoin (strBytes "lib") ver).head? ≠ some 0x2F := by
    rw [hlib, show strBytes "lib" = 0x6C :: strBytes "ib" from by decide]
    simp
  have hlibl : (osJoin (strBytes "lib") ver).getLast? ≠ some 0x2F := by
    rw [hlib, getLast?_append_cons]
    cases hname : ver with
    | nil => exact absurd hname hver.1
    | cons n0 ns =>
      rw [List.getLast?_cons_cons, ← hname]
      exact getLast?_ne_slash_of_wf hver
  have h1 : osJoin pfx (osJoin (strBytes "lib") ver)
      = pfx ++ 0x2F :: osJoin (strBytes "lib") ver :=
    osJoin_eq hpfx1 hpfx2 hlibh
  have h2 : osJoin (pfx ++ 0x2F :: osJoin (strBytes "lib") ver) (strBytes "orig-prefix.txt")
      = (pfx ++ 0x2F :: osJoin (strBytes "lib") ver) ++ 0x2F :: strBytes "orig-prefix.txt" := by
    apply osJoin_eq (by simp) _ (by decide)
    rw [getLast?_append_cons]
    cases hj : osJoin (strBytes "lib") ver with
    | nil => exact absurd hj hlibne
    | cons j0 js =>
      rw [List.getLast?_cons_cons, ← hj]
      exact hlibl
  rw [h1, h2]
  have hassoc : (pfx ++ 0x2F :: osJoin (strBytes "lib") ver) ++ 0x2F :: strBytes "orig-prefix.txt"
      = pfx ++ 0x2F :: (osJoin (strBytes "lib") ver ++ 0x2F :: strBytes "orig-prefix.txt") := by
    simp
  rw [hassoc]
  have hcomps : pathComps (osJoin (strBytes "lib") ver ++ 0x2F :: strBytes "orig-prefix.txt")
      = [strBytes "lib", ver, strBytes "orig-prefix.txt"] := by
    rw [pathComps_append, hlib, pathComps_append]
    rw [pathComps_single (by decide) (by decide)]
    rw [pathComps_single hver.2.1 hver.1]
    rw [pathComps_single (by decide) (by decide)]
    rfl
  rw [relpath_append _ _ (by rw [hcomps]; simp), hcomps]
  simp [List.intercalate, List.intersperse]

/-- C7: every target handed to the archive — discovered manifest entries
(from well-formed directory-entry names, which never contain `/` and are
never `.` or `..`) and the helper scripts and origin-config file added
by `Packer.finish` — is neither absolute nor does it begin with a
parent-directory traversal segment `..`. -/
theorem C7_targets_relative (ctx : Context) (top : List (Bytes × FsNode))
    (scriptNames : List Bytes) (ver : Bytes)
    (hw : WfChildren top)
    (hscripts : ∀ n ∈ scriptNames, wfName n)
    (hver : wfName ver)
    (hlib : ctx.pyLib = osJoin (strBytes "lib") ver)
    (hpfx1 : ctx.pfx ≠ []) (hpfx2 : ctx.pfx.getLast? ≠ some 0x2F) :
    (∀ f ∈ load_environment_files ctx top, targetSafe f.target)
  ∧ (∀ t ∈ Packer.finishTargets ctx scriptNames, targetSafe t) := by
  constructor
  · intro f hf
    obtain ⟨p, hp, hfp⟩ := List.mem_map.mp hf
    have hres : p ∈ load_environment_res top := by
      have := List.mem_filter.mp hp
      exact this.1
    rw [← hfp]
    obtain ⟨c, hc, hpc⟩ := List.mem_flatMap.mp hres
    have hwfc := (hw c hc).1
    cases hn : c.2 with
    | dir ch =>
      rw [hn] at hpc
      have hwch : WfChildren ch := by
        have hnode := (hw c hc).2
        rw [hn, wfNode] at hnode
        exact hnode
      have hshape := walkDir_shape c.1 ch hwch hwfc.1 (getLast?_ne_slash_of_wf hwfc)
        p hpc
      exact safe_of_shape hwfc hshape
    | file =>
      rw [hn] at hpc
      rcases List.mem_singleton.mp hpc with rfl
      exact safe_of_shape hwfc (Or.inl rfl)
    | linkFile =>
      rw [hn] at hpc
      rcases List.mem_singleton.mp hpc with rfl
      exact safe_of_shape hwfc (Or.inl rfl)
    | linkDir =>
      rw [hn] at hpc
      rcases List.mem_singleton.mp hpc with rfl
      exact safe_of_shape hwfc (Or.inl rfl)
  · intro t ht
    rw [Packer.finishTargets] at ht
    rcases List.mem_append.mp ht with hs | hfin
    · obtain ⟨n, hn, hnj⟩ := List.mem_map.mp hs
      have hwfn := hscripts n hn
      have hj : osJoin BIN_DIR n = BIN_DIR ++ 0x2F :: n :=
        osJoin_eq (by decide) (by decide) (head?_ne_slash_of_wf hwfn)
      rw [← hnj, hj]
      exact safe_of_shape (by unfold wfName; decide) (Or.inr ⟨n, rfl⟩)
    · split at hfin
      · rcases List.mem_singleton.mp hfin with rfl
        exact ⟨by decide, by decide, by decide⟩
      · rcases List.mem_singleton.mp hfin with rfl
        rw [hlib, finish_relpath_eq hver hpfx1 hpfx2]
        apply safe_of_head (c := 0x6C)
        · rw [show strBytes "lib" = 0x6C :: strBytes "ib" from by decide]
          rfl
        · decide
        · decide

theorem C7_witness :
    (∀ f ∈ load_environment_files ctx0 top3, targetSafe f.target)
  ∧ (∀ t ∈ Packer.finishTargets ctx0 scripts0, targetSafe t) := by
  have h := C7_targets_relative ctx0 top3 scripts0 (strBytes "python3.7")
    ?hw ?hs ?hv ?hl ?hp1 ?hp2
  · exact h
  case hw =>
    intro c hc
    rw [top3] at hc
    simp only [List.mem_cons, List.not_mem_nil, or_false] at hc
    rcases hc with rfl | rfl
    · exact ⟨by unfold wfName; decide, by simp [wfNode]⟩
    · refine ⟨by unfold wfName; decide, ?_⟩
      rw [wfNode]
      intro c2 hc2
      simp only [List.mem_cons, List.not_mem_nil, or_false] at hc2
      rcases hc2 with rfl | rfl | rfl <;>
        exact ⟨by unfold wfName; decide, by simp [wfNode]⟩
  case hs =>
    intro n hn
    rw [scripts0] at hn
    simp only [List.mem_cons, List.not_mem_nil, or_false] at hn
    rcases hn with rfl
    unfold wfName
    decide
  case hv => unfold wfName; decide
  case hl => decide
  case hp1 => decide
  case hp2 => decide

/-! ### Pack staging and ZIP64: C6 -/

/-- C6: packing to zip with ZIP64 disabled and more than 65536 entries
raises the domain error (the low-level `LargeZipFile` is translated);
with ZIP64 enabled the same write succeeds; on every pack failure the
temporary file is gone and nothing was written to the output path
(anything already there is untouched); on success the temporary has
been moved onto the output path. -/
theorem C6_zip64_and_cleanup (name : Bytes) (output : Option Bytes)
    (format out fmt : Bytes) (outPre force : Bool) (n : Nat)
    (w : Except PyErr Unit) :
    (outputAndFormat name output (strBytes "zip") = Except.ok (out, fmt) →
      ¬ (outPre ∧ ¬ force) → 65536 < n →
      packRun name output (strBytes "zip") outPre force
          (archiveWrite (strBytes "zip") false n)
        = ⟨Except.error (PyErr.venvPack VErr.largeZip), false,
           if outPre then some OutFile.preexisting else none⟩)
  ∧ (archiveWrite (strBytes "zip") true n = Except.ok ())
  ∧ (outputAndFormat name output (strBytes "zip") = Except.ok (out, fmt) →
      ¬ (outPre ∧ ¬ force) →
      packRun name output (strBytes "zip") outPre force
          (archiveWrite (strBytes "zip") true n)
        = ⟨Except.ok out, false, some OutFile.packed⟩)
  ∧ (∀ e, (packRun name output format outPre force w).result = Except.error e →
      (packRun name output format outPre force w).tempLeft = false
      ∧ (packRun name output format outPre force w).output
          = (if outPre then some OutFile.preexisting else none))
  ∧ (∀ o, (packRun name output format outPre force w).result = Except.ok o →
      (packRun name output format outPre force w).tempLeft = false
      ∧ (packRun name output format outPre force w).output = some OutFile.packed) := by
  refine ⟨?_, ?_, ?_, ?_, ?_⟩
  · intro hres hnc hn
    have hw : archiveWrite (strBytes "zip") false n = Except.error PyErr.largeZipFile := by
      rw [archiveWrite, if_pos rfl, if_pos ⟨by simp, by rw [ZIP_FILECOUNT_LIMIT]; omega⟩]
    rw [packRun, hres, hw]
    simp [hnc]
    tauto
  · rw [archiveWrite, if_pos rfl, if_neg (by simp)]
  · intro hres hnc
    have hw : archiveWrite (strBytes "zip") true n = Except.ok () := by
      rw [archiveWrite, if_pos rfl, if_neg (by simp)]
    rw [packRun, hres, hw]
    simp [hnc]
    tauto
  · intro e
    rw [packRun]
    split
    · intro _; exact ⟨rfl, rfl⟩
    · split
      · intro _; exact ⟨rfl, rfl⟩
      · split
        · intro he; simp at he
        · intro _; exact ⟨rfl, rfl⟩
        · intro _; exact ⟨rfl, rfl⟩
  · intro o
    rw [packRun]
    split
    · intro ho; simp at ho
    · split
      · intro ho; simp at ho
      · split
        · intro _; exact ⟨rfl, rfl⟩
        · intro ho; simp at ho
        · intro ho; simp at ho

theorem C6_witness :
    packRun (strBytes "env") (some (strBytes "big.zip")) (strBytes "zip")
        false false (archiveWrite (strBytes "zip") false 70000)
      = ⟨Except.error (PyErr.venvPack VErr.largeZip), false, none⟩
  ∧ packRun (strBytes "env") (some (strBytes "big.zip")) (strBytes "zip")
        false false (archiveWrite (strBytes "zip") true 70000)
      = ⟨Except.ok (strBytes "big.zip"), false, some OutFile.packed⟩ := by
  have h := C6_zip64_and_cleanup (strBytes "env") (some (strBytes "big.zip"))
    (strBytes "zip") (strBytes "big.zip") (strBytes "zip") false false 70000
    (Except.ok ())
  constructor
  · have h1 := h.1 (by decide) (by simp) (by omega)
    simpa using h1
  · have h3 := h.2.2.1 (by decide) (by simp)
    simpa using h3
